import Mathlib

/-!
Verification development for the s3fs-go file server (`main.go`).

The Go program resolves an HTTP object reference `(bucket, key)` to a path
under a storage root via `sanitizePath`, which uses `filepath.Join`,
`filepath.Clean`, `filepath.Abs` and a boundary-safe prefix check, and then
serves PUT/GET/DELETE through three handlers.

The embedding below models strings as Lean `String` (lists of characters),
bytes as `List Nat`, and the POSIX path functions of Go's `path/filepath`
package for a Unix separator `'/'` (the deployment target of the program).
Filesystem effects in the handlers are modelled by per-operation oracles
(`FS`), since the handlers only branch on the outcome of each call.
-/

namespace S3FS

/-- A path segment: the characters between two separators. -/
abbrev Seg := List Char

/-- The `..` segment. -/
def ddSeg : Seg := ['.', '.']

/-- The `.` segment. -/
def dotSeg : Seg := ['.']

/-- Split a character list on every `'/'`, keeping empty segments,
exactly as `strings.Split(s, "/")` does (`Split("") = [""]`). -/
def splitSegs : List Char → List Seg
  | [] => [[]]
  | c :: cs =>
    if c = '/' then [] :: splitSegs cs
    else
      match splitSegs cs with
      | [] => [[c]]
      | s :: rest => (c :: s) :: rest

/-- One step of the `filepath.Clean` element loop.  `acc` is the output
segment stack (head = most recently emitted segment).  An empty or `.`
segment is dropped; `..` pops a real segment, is dropped at the top of a
rooted path, and accumulates otherwise; any other segment is emitted.
This is the segment-level reading of the `for r < n` loop in Go's
`filepath.Clean` (`out.w > dotdot` = the stack has a poppable real
segment; the `!rooted` case appends a `..`). -/
def step (rooted : Bool) (acc : List Seg) (s : Seg) : List Seg :=
  if s = [] ∨ s = dotSeg then acc
  else if s = ddSeg then
    match acc with
    | [] => if rooted then [] else [ddSeg]
    | a :: acc' => if a = ddSeg then ddSeg :: a :: acc' else acc'
  else s :: acc

/-- Run the `Clean` element loop over a segment list and return the output
segments in path order. -/
def cleanCore (rooted : Bool) (segs : List Seg) : List Seg :=
  (segs.foldl (step rooted) []).reverse

/-- Join segments with `'/'` (inverse of `splitSegs` on clean output). -/
def joinSegs : List Seg → List Char
  | [] => []
  | [s] => s
  | s :: rest => s ++ '/' :: joinSegs rest

/-- Go `filepath.Clean` on Unix, at the character level: empty path becomes
`"."`; a rooted path keeps its leading `'/'` (and `..` cannot climb above
it); a relative path that cleans to nothing becomes `"."`. -/
def cleanChars (cs : List Char) : List Char :=
  match cs with
  | [] => ['.']
  | c :: rest =>
    if c = '/' then '/' :: joinSegs (cleanCore true (splitSegs (c :: rest)))
    else
      match cleanCore false (splitSegs (c :: rest)) with
      | [] => ['.']
      | out => joinSegs out

/-- Go `filepath.Clean` (Unix). -/
def goClean (p : String) : String := ⟨cleanChars p.data⟩

/-- Go `filepath.IsAbs` (Unix): the path starts with `'/'`. -/
def isAbsChars : List Char → Bool
  | [] => false
  | c :: _ => c == '/'

/-- Go `filepath.IsAbs` on `String`. -/
def goIsAbs (p : String) : Bool := isAbsChars p.data

/-- Go `strings.HasPrefix`. -/
def goHasPre (s pre : String) : Bool := pre.data.isPrefixOf s.data

/-- Go `filepath.Join(a, b)`: skip leading empty elements, then `Clean`
the `'/'`-joined remainder; all-empty input gives `""`. -/
def goJoin2 (a b : String) : String :=
  if a ≠ "" then goClean (a ++ "/" ++ b)
  else if b ≠ "" then goClean b
  else ""

/-- Go `filepath.Join(a, b, c)`. -/
def goJoin3 (a b c : String) : String :=
  if a ≠ "" then goClean (a ++ "/" ++ b ++ "/" ++ c)
  else if b ≠ "" then goClean (b ++ "/" ++ c)
  else if c ≠ "" then goClean c
  else ""

/-- Go `filepath.Abs` (Unix): `Clean` an absolute path, otherwise join it
onto the working directory `cwd` (`os.Getwd`).  With `cwd` supplied the
function is total; Go's only error case is `Getwd` failing. -/
def goAbs (cwd p : String) : String :=
  if goIsAbs p then goClean p else goJoin2 cwd p

/-- Go `filepath.Base` (Unix): `"."` for the empty path, strip trailing
separators, then the part after the last separator (`"/"` if nothing is
left). -/
def goBase (p : String) : String :=
  if p = "" then "."
  else
    match p.data.reverse.dropWhile (fun c => c = '/') with
    | [] => "/"
    | cs => ⟨(cs.takeWhile (fun c => ¬ c = '/')).reverse⟩

/-- Go `filepath.Dir` (Unix): everything up to and including the final
separator, `Clean`ed (`Clean ""` = `"."` when there is no separator). -/
def goDir (p : String) : String :=
  goClean ⟨(p.data.reverse.dropWhile (fun c => ¬ c = '/')).reverse⟩

/-- The function `sanitizePath` from `main.go`: join root/bucket/key, clean, make both
the target and the root absolute, and accept iff the target starts with
`absRoot + "/"` or equals `absRoot`; otherwise report path traversal.
Go's intermediate locals `joined`/`cleaned`/`absRoot`/`absTarget` are
inlined.  `cwd` stands for the process working directory used by
`filepath.Abs`; the `Abs` error branches are unreachable in the model
because `Abs` is total once `cwd` is given. -/
def sanitizePath (cwd root bucket key : String) : Except String String :=
  if goHasPre (goAbs cwd (goClean (goJoin3 root bucket key))) (goAbs cwd root ++ "/") = false
      ∧ goAbs cwd (goClean (goJoin3 root bucket key)) ≠ goAbs cwd root
  then Except.error "invalid path: path traversal detected"
  else Except.ok (goAbs cwd (goClean (goJoin3 root bucket key)))

/-- Go `strings.TrimPrefix(s, "/")`. -/
def goTrimLeadSlash (s : String) : String :=
  match s.data with
  | [] => s
  | c :: rest => if c = '/' then ⟨rest⟩ else s

/-- Split at the first `'/'`: `(before, some after)` when a separator
occurs, `(s, none)` otherwise. -/
def splitFirst : List Char → List Char × Option (List Char)
  | [] => ([], none)
  | c :: cs =>
    if c = '/' then ([], some cs)
    else
      match splitFirst cs with
      | (a, b) => (c :: a, b)

/-- Go `strings.SplitN(s, "/", 2)`: one part (`(s, none)`) when `s` has no
separator, otherwise the part before and the part after the first one. -/
def goSplitN2 (s : String) : String × Option String :=
  match splitFirst s.data with
  | (a, b) => (⟨a⟩, b.map fun cs => ⟨cs⟩)

/-- Outcome of `os.Open`. -/
inductive OpenResult where
  | ok (contents : List Nat)
  | errNotExist
  | errOther
deriving DecidableEq

/-- Outcome of `os.Remove`. -/
inductive RemoveResult where
  | ok
  | errNotExist
  | errOther
deriving DecidableEq

/-- Outcome of `os.MkdirAll`. -/
inductive MkdirResult where
  | ok
  | err
deriving DecidableEq

/-- Outcome of `os.Create`. -/
inductive CreateResult where
  | ok
  | err
deriving DecidableEq

/-- Outcome of `io.Copy` from the request body into the created file. -/
inductive CopyResult where
  | ok
  | err
deriving DecidableEq

/-- Filesystem oracle: the handlers only branch on the outcome of each
operation at the path they pass, so a filesystem state is modelled by the
outcome it yields for each call. -/
structure FS where
  openFile : String → OpenResult
  removeFile : String → RemoveResult
  mkdirAll : String → MkdirResult
  createFile : String → CreateResult
  writeAll : String → List Nat → CopyResult

/-- An HTTP request as the handlers see it: `r.Method`, `r.URL.Path`, and
the body bytes. -/
structure Request where
  method : String
  urlPath : String
  body : List Nat
deriving DecidableEq

/-- An HTTP response: status code, the two headers the program ever sets,
the streamed file body (GET success), and the text body of `http.Error`. -/
structure Response where
  status : Nat
  contentType : Option String
  contentDisposition : Option String
  fileBody : Option (List Nat)
  errMsg : Option String
deriving DecidableEq

/-- Model of `http.Error(w, msg, code)`. -/
def httpError (msg : String) (code : Nat) : Response :=
  ⟨code, none, none, none, some msg⟩

/-- The function `uploadHandler` from `main.go` (PUT). -/
def uploadHandler (cwd root : String) (fs : FS) (r : Request) : Response :=
  if r.method ≠ "PUT" then httpError "Method Not Allowed" 405
  else if (goSplitN2 (goTrimLeadSlash r.urlPath)).1 = "" then
    httpError "Bad Request: missing bucket" 400
  else
    match (goSplitN2 (goTrimLeadSlash r.urlPath)).2 with
    | none => httpError "Bad Request: missing key" 400
    | some key =>
      match sanitizePath cwd root (goSplitN2 (goTrimLeadSlash r.urlPath)).1 key with
      | Except.error _ => httpError "Invalid path" 400
      | Except.ok targetPath =>
        match fs.mkdirAll (goDir targetPath) with
        | MkdirResult.err => httpError "Internal Server Error" 500
        | MkdirResult.ok =>
          match fs.createFile targetPath with
          | CreateResult.err => httpError "Internal Server Error" 500
          | CreateResult.ok =>
            match fs.writeAll targetPath r.body with
            | CopyResult.err => httpError "Internal Server Error" 500
            | CopyResult.ok => ⟨204, none, none, none, none⟩

/-- The function `downloadHandler` from `main.go` (GET). -/
def downloadHandler (cwd root : String) (fs : FS) (r : Request) : Response :=
  if r.method ≠ "GET" then httpError "Method Not Allowed" 405
  else if (goSplitN2 (goTrimLeadSlash r.urlPath)).1 = "" then
    httpError "Bad Request: missing bucket" 400
  else
    match (goSplitN2 (goTrimLeadSlash r.urlPath)).2 with
    | none => httpError "Bad Request: missing key" 400
    | some key =>
      match sanitizePath cwd root (goSplitN2 (goTrimLeadSlash r.urlPath)).1 key with
      | Except.error _ => httpError "Invalid path" 400
      | Except.ok targetPath =>
        match fs.openFile targetPath with
        | OpenResult.errNotExist => httpError "Not Found" 404
        | OpenResult.errOther => httpError "Internal Server Error" 500
        | OpenResult.ok contents =>
          ⟨200, some "application/octet-stream",
            some ("attachment; filename=\"" ++ goBase key ++ "\""),
            some contents, none⟩

/-- The function `deleteHandler` from `main.go` (DELETE). -/
def deleteHandler (cwd root : String) (fs : FS) (r : Request) : Response :=
  if r.method ≠ "DELETE" then httpError "Method Not Allowed" 405
  else if (goSplitN2 (goTrimLeadSlash r.urlPath)).1 = "" then
    httpError "Bad Request: missing bucket" 400
  else
    match (goSplitN2 (goTrimLeadSlash r.urlPath)).2 with
    | none => httpError "Bad Request: missing key" 400
    | some key =>
      match sanitizePath cwd root (goSplitN2 (goTrimLeadSlash r.urlPath)).1 key with
      | Except.error _ => httpError "Invalid path" 400
      | Except.ok targetPath =>
        match fs.removeFile targetPath with
        | RemoveResult.errNotExist => ⟨204, none, none, none, none⟩
        | RemoveResult.errOther => httpError "Internal Server Error" 500
        | RemoveResult.ok => ⟨204, none, none, none, none⟩

/-- A filesystem oracle on which every operation succeeds and every file
opens with empty contents. -/
def fsAllOk : FS :=
  ⟨fun _ => OpenResult.ok [], fun _ => RemoveResult.ok, fun _ => MkdirResult.ok,
    fun _ => CreateResult.ok, fun _ _ => CopyResult.ok⟩

/-- A filesystem oracle on which the target does not exist: `os.Open` and
`os.Remove` fail with not-exist, writes succeed. -/
def fsNotExist : FS :=
  ⟨fun _ => OpenResult.errNotExist, fun _ => RemoveResult.errNotExist,
    fun _ => MkdirResult.ok, fun _ => CreateResult.ok, fun _ _ => CopyResult.ok⟩

/-- A filesystem oracle whose files all contain the bytes `[7, 8, 9]`. -/
def fsWithFile : FS :=
  ⟨fun _ => OpenResult.ok [7, 8, 9], fun _ => RemoveResult.ok, fun _ => MkdirResult.ok,
    fun _ => CreateResult.ok, fun _ _ => CopyResult.ok⟩

/-- Keep only the segments that `step` emits unchanged: drop empty and `.`
segments. -/
def realFilter : List Seg → List Seg
  | [] => []
  | s :: rest => if s = [] ∨ s = dotSeg then realFilter rest else s :: realFilter rest

/-- A plain name segment: nonempty, not `.`, not `..`, and separator-free. -/
def realSegP (s : Seg) : Prop :=
  s ≠ [] ∧ s ≠ dotSeg ∧ s ≠ ddSeg ∧ ('/' : Char) ∉ s

/-- Well-formedness of the `step`-loop output stack for a relative path:
a block of plain segments on top of a block of accumulated `..`s. -/
def accWF (acc : List Seg) : Prop :=
  ∃ rs n, acc = rs ++ List.replicate n ddSeg ∧ ∀ s ∈ rs, realSegP s

theorem splitSegs_ne_nil (cs : List Char) : splitSegs cs ≠ [] := by
  cases cs with
  | nil => simp [splitSegs]
  | cons c rest =>
    simp only [splitSegs]
    split
    · exact List.cons_ne_nil _ _
    · split <;> exact List.cons_ne_nil _ _

theorem splitSegs_cons_exists (cs : List Char) : ∃ s rest, splitSegs cs = s :: rest := by
  cases h : splitSegs cs with
  | nil => exact absurd h (splitSegs_ne_nil cs)
  | cons s rest => exact ⟨s, rest, rfl⟩

theorem splitSegs_append (a b : List Char) :
    splitSegs (a ++ '/' :: b) = splitSegs a ++ splitSegs b := by
  induction a with
  | nil => simp [splitSegs]
  | cons c cs ih =>
    by_cases hc : c = '/'
    · subst hc
      simp [splitSegs, ih]
    · obtain ⟨s, rest, hsr⟩ := splitSegs_cons_exists cs
      simp only [List.cons_append, splitSegs, if_neg hc, List.append_eq, ih, hsr,
        List.cons_append]

theorem splitSegs_no_slash_eq {cs : List Char} (h : ('/' : Char) ∉ cs) :
    splitSegs cs = [cs] := by
  induction cs with
  | nil => rfl
  | cons c rest ih =>
    have hc : c ≠ '/' := fun hh => h (hh ▸ List.mem_cons_self _ _)
    have h' : ('/' : Char) ∉ rest := fun hh => h (List.mem_cons_of_mem _ hh)
    simp [splitSegs, if_neg hc, ih h']

theorem mem_splitSegs_no_slash {cs : List Char} {s : Seg} (h : s ∈ splitSegs cs) :
    ('/' : Char) ∉ s := by
  induction cs generalizing s with
  | nil =>
    simp [splitSegs] at h
    subst h
    simp
  | cons c rest ih =>
    simp only [splitSegs] at h
    by_cases hc : c = '/'
    · rw [if_pos hc] at h
      rcases List.mem_cons.mp h with h1 | h2
      · subst h1; simp
      · exact ih h2
    · rw [if_neg hc] at h
      obtain ⟨t, ts, hts⟩ := splitSegs_cons_exists rest
      rw [hts] at h
      rcases List.mem_cons.mp h with h1 | h2
      · subst h1
        intro hmem
        rcases List.mem_cons.mp hmem with hh | hh
        · exact hc hh.symm
        · exact ih (hts ▸ List.mem_cons_self t ts) hh
      · exact ih (hts ▸ List.mem_cons_of_mem t h2)

theorem realFilter_eq_self {out : List Seg} (h : ∀ s ∈ out, s ≠ [] ∧ s ≠ dotSeg) :
    realFilter out = out := by
  induction out with
  | nil => rfl
  | cons s rest ih =>
    have hs := h s (List.mem_cons_self _ _)
    have hcond : ¬(s = [] ∨ s = dotSeg) := fun hh => hh.elim hs.1 hs.2
    simp only [realFilter, if_neg hcond]
    rw [ih fun t ht => h t (List.mem_cons_of_mem _ ht)]

theorem foldl_step_no_dd (rooted : Bool) (ys : List Seg) :
    ∀ acc, (∀ s ∈ ys, s ≠ ddSeg) →
      List.foldl (step rooted) acc ys = (realFilter ys).reverse ++ acc := by
  induction ys with
  | nil =>
    intro acc _
    simp [realFilter]
  | cons y ys ih =>
    intro acc hy
    have hynd : y ≠ ddSeg := hy y (List.mem_cons_self _ _)
    have hys : ∀ s ∈ ys, s ≠ ddSeg := fun s hs => hy s (List.mem_cons_of_mem _ hs)
    simp only [List.foldl_cons]
    rw [ih _ hys]
    by_cases hb : y = [] ∨ y = dotSeg
    · simp only [step, if_pos hb, realFilter]
    · simp only [step, if_pos hb, if_neg hb, if_neg hynd, realFilter]
      simp [List.append_assoc]

theorem foldl_step_replicate (n k : Nat) :
    List.foldl (step false) (List.replicate k ddSeg) (List.replicate n ddSeg)
      = List.replicate (n + k) ddSeg := by
  induction n generalizing k with
  | zero => simp
  | succ n ih =>
    have hstep : step false (List.replicate k ddSeg) ddSeg
        = List.replicate (k + 1) ddSeg := by
      cases k with
      | zero => simp [step, ddSeg, dotSeg]
      | succ k => simp [step, ddSeg, dotSeg, List.replicate_succ]
    have harith : n + (k + 1) = n + 1 + k := by omega
    rw [List.replicate_succ, List.foldl_cons, hstep, ih (k + 1), harith]

theorem step_wf_rooted {x : Seg} {acc : List Seg} (hx : ('/' : Char) ∉ x)
    (hacc : ∀ s ∈ acc, realSegP s) : ∀ s ∈ step true acc x, realSegP s := by
  intro s hs
  by_cases h1 : x = [] ∨ x = dotSeg
  · simp only [step, if_pos h1] at hs
    exact hacc s hs
  · by_cases h2 : x = ddSeg
    · cases acc with
      | nil =>
        simp only [step, if_neg h1, if_pos h2] at hs
        simp at hs
      | cons a acc' =>
        have ha : a ≠ ddSeg := (hacc a (List.mem_cons_self _ _)).2.2.1
        simp only [step, if_neg h1, if_pos h2, if_neg ha] at hs
        exact hacc s (List.mem_cons_of_mem _ hs)
    · simp only [step, if_neg h1, if_neg h2] at hs
      rcases List.mem_cons.mp hs with rfl | hmem
      · exact ⟨fun h => h1 (Or.inl h), fun h => h1 (Or.inr h), h2, hx⟩
      · exact hacc s hmem

theorem foldl_step_wf_rooted (segs : List Seg) :
    ∀ acc, (∀ s ∈ segs, ('/' : Char) ∉ s) → (∀ s ∈ acc, realSegP s) →
      ∀ s ∈ List.foldl (step true) acc segs, realSegP s := by
  induction segs with
  | nil =>
    intro acc _ hacc
    simpa using hacc
  | cons x xs ih =>
    intro acc hseg hacc
    simp only [List.foldl_cons]
    exact ih _ (fun s hs => hseg s (List.mem_cons_of_mem _ hs))
      (step_wf_rooted (hseg x (List.mem_cons_self _ _)) hacc)

theorem step_wf_false {x : Seg} {acc : List Seg} (hx : ('/' : Char) ∉ x)
    (hacc : accWF acc) : accWF (step false acc x) := by
  obtain ⟨rs, n, rfl, hrs⟩ := hacc
  by_cases h1 : x = [] ∨ x = dotSeg
  · simp only [step, if_pos h1]
    exact ⟨rs, n, rfl, hrs⟩
  · by_cases h2 : x = ddSeg
    · simp only [step, if_neg h1, if_pos h2]
      cases rs with
      | nil =>
        cases n with
        | zero => exact ⟨[], 1, by simp, by simp⟩
        | succ n =>
          simp only [List.nil_append, List.replicate_succ, if_pos rfl, if_true]
          exact ⟨[], n + 2, by simp [List.replicate_succ], by simp⟩
      | cons a rs' =>
        have ha : a ≠ ddSeg := (hrs a (List.mem_cons_self _ _)).2.2.1
        simp only [List.cons_append]
        rw [if_neg ha]
        exact ⟨rs', n, rfl, fun s hs => hrs s (List.mem_cons_of_mem _ hs)⟩
    · simp only [step, if_neg h1, if_neg h2]
      refine ⟨x :: rs, n, by simp, ?_⟩
      intro s hs
      rcases List.mem_cons.mp hs with rfl | hmem
      · exact ⟨fun h => h1 (Or.inl h), fun h => h1 (Or.inr h), h2, hx⟩
      · exact hrs s hmem

theorem foldl_step_wf_false (segs : List Seg) :
    ∀ acc, (∀ s ∈ segs, ('/' : Char) ∉ s) → accWF acc →
      accWF (List.foldl (step false) acc segs) := by
  induction segs with
  | nil =>
    intro acc _ hacc
    simpa using hacc
  | cons x xs ih =>
    intro acc hseg hacc
    simp only [List.foldl_cons]
    exact ih _ (fun s hs => hseg s (List.mem_cons_of_mem _ hs))
      (step_wf_false (hseg x (List.mem_cons_self _ _)) hacc)

theorem joinSegs_append {p s : List Seg} (hp : p ≠ []) (hs : s ≠ []) :
    joinSegs (p ++ s) = joinSegs p ++ '/' :: joinSegs s := by
  induction p with
  | nil => exact absurd rfl hp
  | cons a p' ih =>
    cases p' with
    | nil =>
      cases s with
      | nil => exact absurd rfl hs
      | cons b s' => simp [joinSegs]
    | cons a2 p'' =>
      have h1 : joinSegs (a :: a2 :: p'' ++ s) = a ++ '/' :: joinSegs (a2 :: p'' ++ s) := by
        cases s with
        | nil => exact absurd rfl hs
        | cons b s' => simp [joinSegs]
      simp only [List.cons_append] at h1 ⊢
      rw [h1, show a2 :: (p'' ++ s) = (a2 :: p'') ++ s from (List.cons_append _ _ _).symm,
        ih (List.cons_ne_nil _ _)]
      simp [joinSegs, List.append_assoc]

theorem splitSegs_joinSegs {out : List Seg} (hne : out ≠ [])
    (hns : ∀ s ∈ out, ('/' : Char) ∉ s) : splitSegs (joinSegs out) = out := by
  induction out with
  | nil => exact absurd rfl hne
  | cons s rest ih =>
    cases rest with
    | nil =>
      show splitSegs (joinSegs [s]) = [s]
      rw [show joinSegs [s] = s from rfl]
      exact splitSegs_no_slash_eq (hns s (List.mem_cons_self _ _))
    | cons t rest' =>
      have h1 : joinSegs (s :: t :: rest') = s ++ '/' :: joinSegs (t :: rest') := by
        simp [joinSegs]
      rw [h1, splitSegs_append, splitSegs_no_slash_eq (hns s (List.mem_cons_self _ _)),
        ih (List.cons_ne_nil _ _) fun x hx => hns x (List.mem_cons_of_mem _ hx)]
      rfl

theorem cleanCore_true_wf (segs : List Seg) (h : ∀ s ∈ segs, ('/' : Char) ∉ s) :
    ∀ s ∈ cleanCore true segs, realSegP s := by
  intro s hs
  rw [cleanCore, List.mem_reverse] at hs
  exact foldl_step_wf_rooted segs [] h (by simp) s hs

theorem cleanCore_false_shape (segs : List Seg) (h : ∀ s ∈ segs, ('/' : Char) ∉ s) :
    ∃ n reals, cleanCore false segs = List.replicate n ddSeg ++ reals
      ∧ ∀ s ∈ reals, realSegP s := by
  obtain ⟨rs, n, heq, hrs⟩ := foldl_step_wf_false segs [] h ⟨[], 0, by simp, by simp⟩
  refine ⟨n, rs.reverse, ?_, ?_⟩
  · rw [cleanCore, heq, List.reverse_append, List.reverse_replicate]
  · intro s hs
    exact hrs s (List.mem_reverse.mp hs)

theorem cleanCore_true_reclean (out : List Seg) (hwf : ∀ s ∈ out, realSegP s) :
    cleanCore true ([] :: splitSegs (joinSegs out)) = out := by
  cases out with
  | nil => rfl
  | cons s rest =>
    rw [splitSegs_joinSegs (List.cons_ne_nil _ _) fun x hx => (hwf x hx).2.2.2]
    rw [cleanCore, List.foldl_cons]
    rw [show step true [] ([] : Seg) = [] from rfl]
    rw [foldl_step_no_dd true _ [] fun x hx => (hwf x hx).2.2.1]
    rw [realFilter_eq_self fun x hx => ⟨(hwf x hx).1, (hwf x hx).2.1⟩]
    simp

theorem cleanCore_false_reclean (n : Nat) (reals : List Seg)
    (hwf : ∀ s ∈ reals, realSegP s)
    (hne : List.replicate n ddSeg ++ reals ≠ []) :
    cleanCore false (splitSegs (joinSegs (List.replicate n ddSeg ++ reals)))
      = List.replicate n ddSeg ++ reals := by
  have hns : ∀ s ∈ List.replicate n ddSeg ++ reals, ('/' : Char) ∉ s := by
    intro s hs
    rcases List.mem_append.mp hs with h1 | h2
    · rw [List.eq_of_mem_replicate h1]
      decide
    · exact (hwf s h2).2.2.2
  rw [splitSegs_joinSegs hne hns]
  rw [cleanCore, List.foldl_append]
  rw [show List.foldl (step false) [] (List.replicate n ddSeg)
      = List.replicate n ddSeg from by simpa using foldl_step_replicate n 0]
  rw [foldl_step_no_dd false reals _ fun x hx => (hwf x hx).2.2.1]
  rw [realFilter_eq_self fun x hx => ⟨(hwf x hx).1, (hwf x hx).2.1⟩]
  simp [List.reverse_append, List.reverse_replicate]

theorem joinSegs_head_ne_slash {out : List Seg} (hne : out ≠ [])
    (h1 : ∀ s ∈ out, s ≠ [] ∧ ('/' : Char) ∉ s) :
    ∃ d ds, joinSegs out = d :: ds ∧ d ≠ '/' := by
  obtain ⟨s, rest, rfl⟩ := List.exists_cons_of_ne_nil hne
  obtain ⟨d, s', hds⟩ := List.exists_cons_of_ne_nil (h1 s (List.mem_cons_self _ _)).1
  have hd : d ≠ '/' := by
    intro h
    exact (h1 s (List.mem_cons_self _ _)).2 (by rw [hds, h]; exact List.mem_cons_self _ _)
  cases rest with
  | nil => exact ⟨d, s', by simp [joinSegs, hds], hd⟩
  | cons t ts =>
    refine ⟨d, s' ++ '/' :: joinSegs (t :: ts), ?_, hd⟩
    rw [show joinSegs (s :: t :: ts) = s ++ '/' :: joinSegs (t :: ts) from by simp [joinSegs]]
    rw [hds]
    rfl

theorem cleanChars_rooted (rest : List Char) :
    cleanChars ('/' :: rest) = '/' :: joinSegs (cleanCore true (splitSegs ('/' :: rest))) := by
  simp [cleanChars]

theorem cleanChars_idem (cs : List Char) : cleanChars (cleanChars cs) = cleanChars cs := by
  cases cs with
  | nil => rfl
  | cons c rest =>
    by_cases hc : c = '/'
    · subst hc
      rw [cleanChars_rooted rest]
      have hwf : ∀ s ∈ cleanCore true (splitSegs ('/' :: rest)), realSegP s :=
        cleanCore_true_wf _ fun s hs => mem_splitSegs_no_slash hs
      rw [cleanChars_rooted, show splitSegs ('/' :: joinSegs (cleanCore true
        (splitSegs ('/' :: rest)))) = [] :: splitSegs (joinSegs (cleanCore true
        (splitSegs ('/' :: rest)))) from by simp [splitSegs]]
      rw [cleanCore_true_reclean _ hwf]
    · obtain ⟨n, reals, hshape, hreals⟩ :=
        cleanCore_false_shape (splitSegs (c :: rest)) fun s hs => mem_splitSegs_no_slash hs
      by_cases hnil : cleanCore false (splitSegs (c :: rest)) = []
      · rw [show cleanChars (c :: rest) = ['.'] from by
          simp [cleanChars, if_neg hc, hnil]]
        rfl
      · have hchars : cleanChars (c :: rest)
            = joinSegs (cleanCore false (splitSegs (c :: rest))) := by
          obtain ⟨s0, t0, hst⟩ := List.exists_cons_of_ne_nil hnil
          simp [cleanChars, if_neg hc, hst]
        rw [hchars, hshape]
        have hne' : List.replicate n ddSeg ++ reals ≠ [] := hshape ▸ hnil
        have hsl : ∀ s ∈ List.replicate n ddSeg ++ reals, s ≠ [] ∧ ('/' : Char) ∉ s := by
          intro s hs
          rcases List.mem_append.mp hs with h1 | h2
          · rw [List.eq_of_mem_replicate h1]
            exact ⟨by decide, by decide⟩
          · exact ⟨(hreals s h2).1, (hreals s h2).2.2.2⟩
        obtain ⟨d, ds, hjoin, hd⟩ := joinSegs_head_ne_slash hne' hsl
        rw [hjoin]
        have hre : cleanCore false (splitSegs (d :: ds))
            = List.replicate n ddSeg ++ reals := by
          rw [← hjoin]
          exact cleanCore_false_reclean n reals hreals hne'
        obtain ⟨s1, t1, hst1⟩ := List.exists_cons_of_ne_nil hne'
        have : cleanChars (d :: ds) = joinSegs (List.replicate n ddSeg ++ reals) := by
          simp [cleanChars, if_neg hd, hre, hst1]
        rw [this, hjoin]

theorem goClean_idem (p : String) : goClean (goClean p) = goClean p := by
  show (⟨cleanChars (String.mk (cleanChars p.data)).data⟩ : String) = ⟨cleanChars p.data⟩
  rw [show (String.mk (cleanChars p.data)).data = cleanChars p.data from rfl,
    cleanChars_idem]

theorem cleanChars_ne_nil (cs : List Char) : cleanChars cs ≠ [] := by
  cases cs with
  | nil => simp [cleanChars]
  | cons c rest =>
    by_cases hc : c = '/'
    · subst hc
      rw [cleanChars_rooted]
      exact List.cons_ne_nil _ _
    · simp only [cleanChars, if_neg hc]
      cases h : cleanCore false (splitSegs (c :: rest)) with
      | nil => simp
      | cons s t =>
        obtain ⟨n, reals, hshape, hreals⟩ :=
          cleanCore_false_shape (splitSegs (c :: rest)) fun x hx => mem_splitSegs_no_slash hx
        have hne : (s :: t : List Seg) ≠ [] := List.cons_ne_nil _ _
        have hsl : ∀ x ∈ (s :: t : List Seg), x ≠ [] ∧ ('/' : Char) ∉ x := by
          rw [← h, hshape]
          intro x hx
          rcases List.mem_append.mp hx with h1 | h2
          · rw [List.eq_of_mem_replicate h1]
            exact ⟨by decide, by decide⟩
          · exact ⟨(hreals x h2).1, (hreals x h2).2.2.2⟩
        obtain ⟨d, ds, hjoin, _⟩ := joinSegs_head_ne_slash hne hsl
        simp [hjoin]

theorem goClean_ne_empty (p : String) : goClean p ≠ "" := by
  intro h
  have : cleanChars p.data = [] := congrArg String.data h
  exact cleanChars_ne_nil p.data this

theorem goClean_rooted_isAbs {p : String} (h : goIsAbs p = true) :
    goIsAbs (goClean p) = true := by
  unfold goIsAbs isAbsChars at h ⊢
  match hp : p.data with
  | [] => rw [hp] at h; exact absurd h (by simp)
  | c :: rest =>
    rw [hp] at h
    have hc : c = '/' := by simpa using h
    subst hc
    show isAbsChars (goClean p).data = true
    rw [show (goClean p).data = cleanChars p.data from rfl, hp, cleanChars_rooted]
    rfl

theorem goClean_goAbs_goClean (cwd x : String) :
    goClean (goAbs cwd (goClean x)) = goAbs cwd (goClean x) := by
  unfold goAbs
  by_cases hq : goIsAbs (goClean x) = true
  · rw [if_pos hq, goClean_idem]
  · rw [if_neg hq]
    unfold goJoin2
    by_cases hcwd : cwd = ""
    · subst hcwd
      rw [if_neg (by simp), if_pos (goClean_ne_empty x), goClean_idem]
    · rw [if_pos hcwd, goClean_idem]

theorem sanitizePath_ok_eq {cwd root bucket key p : String}
    (h : sanitizePath cwd root bucket key = Except.ok p) :
    p = goAbs cwd (goClean (goJoin3 root bucket key)) := by
  unfold sanitizePath at h
  by_cases hcond : goHasPre (goAbs cwd (goClean (goJoin3 root bucket key)))
      (goAbs cwd root ++ "/") = false
      ∧ goAbs cwd (goClean (goJoin3 root bucket key)) ≠ goAbs cwd root
  · rw [if_pos hcond] at h
    exact absurd h (by simp)
  · rw [if_neg hcond] at h
    injection h with h'
    exact h'.symm

/-- C1: whenever `sanitizePath` succeeds, the returned path is the absolute
form of the lexically cleaned join of root, bucket and key, and it either
equals the absolute root or starts with the absolute root followed by the
path separator (the boundary-safe prefix check of `main.go` line 37). -/
theorem sanitizePath_ok_contained (cwd root bucket key p : String)
    (h : sanitizePath cwd root bucket key = Except.ok p) :
    p = goAbs cwd (goClean (goJoin3 root bucket key))
      ∧ (goHasPre p (goAbs cwd root ++ "/") = true ∨ p = goAbs cwd root) := by
  have heq := sanitizePath_ok_eq h
  refine ⟨heq, ?_⟩
  unfold sanitizePath at h
  by_cases hcond : goHasPre (goAbs cwd (goClean (goJoin3 root bucket key)))
      (goAbs cwd root ++ "/") = false
      ∧ goAbs cwd (goClean (goJoin3 root bucket key)) ≠ goAbs cwd root
  · rw [if_pos hcond] at h
    exact absurd h (by simp)
  · by_cases hA : goHasPre p (goAbs cwd root ++ "/") = true
    · exact Or.inl hA
    · have hA' : goHasPre (goAbs cwd (goClean (goJoin3 root bucket key)))
          (goAbs cwd root ++ "/") = false := by
        rw [← heq]
        cases hB : goHasPre p (goAbs cwd root ++ "/") with
        | false => rfl
        | true => exact absurd hB hA
      refine Or.inr ?_
      rw [heq]
      by_contra hne
      exact hcond ⟨hA', hne⟩

/-- C1 witness: a concrete successful resolution satisfying the
containment property. -/
theorem sanitizePath_ok_contained_witness :
    "/data/b/k" = goAbs "/" (goClean (goJoin3 "/data" "b" "k"))
      ∧ (goHasPre "/data/b/k" (goAbs "/" "/data" ++ "/") = true
        ∨ "/data/b/k" = goAbs "/" "/data") :=
  sanitizePath_ok_contained "/" "/data" "b" "k" "/data/b/k" rfl

/-- C2: the code violates the claim (and its own comment at `main.go`
lines 64-66): a path of the form `/bucket/` splits into `["bucket", ""]`,
so the handlers proceed with an empty key instead of answering 400; with
every filesystem operation succeeding, PUT answers 204, GET answers 200
and DELETE answers 204 for the path `/b/`. -/
theorem emptyKey_accepted :
    (uploadHandler "/" "/data" fsAllOk ⟨"PUT", "/b/", []⟩).status = 204
      ∧ (downloadHandler "/" "/data" fsAllOk ⟨"GET", "/b/", []⟩).status = 200
      ∧ (deleteHandler "/" "/data" fsAllOk ⟨"DELETE", "/b/", []⟩).status = 204 :=
  ⟨rfl, rfl, rfl⟩

/-- C4: whenever the absolute cleaned target of root/bucket/key fails the
boundary check (it neither starts with the absolute root plus separator
nor equals the absolute root), `sanitizePath` fails with the
path-traversal error and returns no path.  The `..`-segment hypothesis
mirrors the claim's wording. -/
theorem sanitizePath_outside_error (cwd root bucket key : String)
    (hdd : ddSeg ∈ splitSegs key.data)
    (h1 : goHasPre (goAbs cwd (goClean (goJoin3 root bucket key)))
      (goAbs cwd root ++ "/") = false)
    (h2 : goAbs cwd (goClean (goJoin3 root bucket key)) ≠ goAbs cwd root) :
    sanitizePath cwd root bucket key
      = Except.error "invalid path: path traversal detected" := by
  unfold sanitizePath
  rw [if_pos ⟨h1, h2⟩]

/-- C4 witness: resolving root `/data`, bucket `b`, key `../../etc/passwd`
fails with the path-traversal error. -/
theorem sanitizePath_outside_error_witness :
    sanitizePath "/" "/data" "b" "../../etc/passwd"
      = Except.error "invalid path: path traversal detected" :=
  sanitizePath_outside_error "/" "/data" "b" "../../etc/passwd"
    (by decide) (by decide) (by decide)

/-- C5: resolving root `/data`, bucket `b2`, key `x` succeeds with
`/data/b2/x`, even though `/data/b` is a plain string prefix of the
result: the acceptance test compares against the root plus a trailing
separator, so sibling names sharing a string prefix are not
misclassified. -/
theorem sanitizePath_sibling_ok :
    sanitizePath "/" "/data" "b2" "x" = Except.ok "/data/b2/x"
      ∧ goHasPre "/data/b2/x" "/data/b" = true :=
  ⟨rfl, by decide⟩

/-- C10: every path returned by a successful `sanitizePath` is a fixed
point of lexical normalization: cleaning it again changes nothing. -/
theorem sanitizePath_ok_clean_fixpoint (cwd root bucket key p : String)
    (h : sanitizePath cwd root bucket key = Except.ok p) :
    goClean p = p := by
  rw [sanitizePath_ok_eq h]
  exact goClean_goAbs_goClean cwd (goJoin3 root bucket key)

/-- C10 witness: the concrete resolved path `/data/b/k` is already
clean. -/
theorem sanitizePath_ok_clean_fixpoint_witness : goClean "/data/b/k" = "/data/b/k" :=
  sanitizePath_ok_clean_fixpoint "/" "/data" "b" "k" "/data/b/k" rfl

theorem clean_contains (r bd kd : List Char)
    (hb : ddSeg ∉ splitSegs bd) (hk : ddSeg ∉ splitSegs kd)
    (hroot : cleanChars ('/' :: r) ≠ ['/']) :
    cleanChars ('/' :: (r ++ '/' :: (bd ++ '/' :: kd))) = cleanChars ('/' :: r)
      ∨ (cleanChars ('/' :: r) ++ ['/'])
        <+: cleanChars ('/' :: (r ++ '/' :: (bd ++ '/' :: kd))) := by
  have hsplit1 : splitSegs ('/' :: r) = [] :: splitSegs r := by
    simp [splitSegs]
  have hsplit2 : splitSegs ('/' :: (r ++ '/' :: (bd ++ '/' :: kd)))
      = [] :: (splitSegs r ++ (splitSegs bd ++ splitSegs kd)) := by
    simp [splitSegs, splitSegs_append]
  have hstep0 : step true [] ([] : Seg) = [] := rfl
  have hcr : cleanCore true ([] :: splitSegs r)
      = (List.foldl (step true) [] (splitSegs r)).reverse := by
    rw [cleanCore, List.foldl_cons, hstep0]
  have hnd : ∀ s ∈ splitSegs bd ++ splitSegs kd, s ≠ ddSeg := by
    intro s hs hseq
    subst hseq
    rcases List.mem_append.mp hs with h1 | h2
    · exact hb h1
    · exact hk h2
  have hct : cleanCore true ([] :: (splitSegs r ++ (splitSegs bd ++ splitSegs kd)))
      = (List.foldl (step true) [] (splitSegs r)).reverse
        ++ realFilter (splitSegs bd ++ splitSegs kd) := by
    rw [cleanCore, List.foldl_cons, hstep0, List.foldl_append,
      foldl_step_no_dd true _ _ hnd, List.reverse_append, List.reverse_reverse]
  simp only [cleanChars_rooted, hsplit1, hsplit2, hcr, hct]
  have hPne : (List.foldl (step true) [] (splitSegs r)).reverse ≠ [] := by
    intro hP
    apply hroot
    rw [cleanChars_rooted, hsplit1, hcr, hP]
    rfl
  by_cases hSnil : realFilter (splitSegs bd ++ splitSegs kd) = []
  · left
    rw [hSnil, List.append_nil]
  · right
    rw [joinSegs_append hPne hSnil]
    refine ⟨joinSegs (realFilter (splitSegs bd ++ splitSegs kd)), ?_⟩
    simp [List.append_assoc]

/-- C3 counterexample: with the absolute storage root `/` and the
`..`-free bucket `b` and key `k`, `sanitizePath` fails: the boundary
check compares against `"/" ++ "/"` (= `"//"`), which no cleaned path
starts with, so every nonempty object reference under root `/` is
rejected. -/
theorem sanitizePath_root_slash_rejected :
    goIsAbs "/" = true
      ∧ ddSeg ∉ splitSegs ("b" : String).data
      ∧ ddSeg ∉ splitSegs ("k" : String).data
      ∧ sanitizePath "/" "/" "b" "k"
        = Except.error "invalid path: path traversal detected" :=
  ⟨rfl, by decide, by decide, rfl⟩

/-- C3 (amended): for every bucket and key containing no `..` segment,
and a storage root that is absolute and does not lexically normalize to
the bare `/`, `sanitizePath` succeeds and returns the lexical
normalization of the joined path root/bucket/key. -/
theorem sanitizePath_no_dotdot_ok (cwd root bucket key : String)
    (habs : goIsAbs root = true) (hroot : goClean root ≠ "/")
    (hb : ddSeg ∉ splitSegs bucket.data) (hk : ddSeg ∉ splitSegs key.data) :
    sanitizePath cwd root bucket key
      = Except.ok (goClean (root ++ "/" ++ bucket ++ "/" ++ key)) := by
  obtain ⟨r, hr⟩ : ∃ r, root.data = '/' :: r := by
    unfold goIsAbs at habs
    cases h : root.data with
    | nil =>
      rw [h] at habs
      exact absurd habs (by simp [isAbsChars])
    | cons c rest =>
      rw [h] at habs
      simp only [isAbsChars] at habs
      exact ⟨rest, by rw [eq_of_beq habs]⟩
  have hne : root ≠ "" := by
    intro h
    rw [h] at hr
    exact List.noConfusion hr
  have hX : (root ++ "/" ++ bucket ++ "/" ++ key).data
      = '/' :: (r ++ '/' :: (bucket.data ++ '/' :: key.data)) := by
    simp only [String.data_append, hr, show ("/" : String).data = ['/'] from rfl]
    simp [List.append_assoc]
  have hjoin : goJoin3 root bucket key = goClean (root ++ "/" ++ bucket ++ "/" ++ key) := by
    unfold goJoin3
    rw [if_pos hne]
  have hrooted : goIsAbs (goClean (root ++ "/" ++ bucket ++ "/" ++ key)) = true := by
    apply goClean_rooted_isAbs
    unfold goIsAbs
    rw [hX]
    rfl
  have htarget : goAbs cwd (goClean (goJoin3 root bucket key))
      = goClean (root ++ "/" ++ bucket ++ "/" ++ key) := by
    rw [hjoin, goClean_idem]
    unfold goAbs
    rw [if_pos hrooted, goClean_idem]
  have hroot' : goAbs cwd root = goClean root := by
    unfold goAbs
    rw [if_pos habs]
  have hroots : cleanChars ('/' :: r) ≠ ['/'] := by
    intro h
    apply hroot
    apply String.ext
    rw [show (goClean root).data = cleanChars root.data from rfl, hr, h]
  have hXdata : (goClean (root ++ "/" ++ bucket ++ "/" ++ key)).data
      = cleanChars ('/' :: (r ++ '/' :: (bucket.data ++ '/' :: key.data))) := by
    rw [show (goClean (root ++ "/" ++ bucket ++ "/" ++ key)).data
      = cleanChars (root ++ "/" ++ bucket ++ "/" ++ key).data from rfl, hX]
  have hrootdata : (goClean root).data = cleanChars ('/' :: r) := by
    rw [show (goClean root).data = cleanChars root.data from rfl, hr]
  unfold sanitizePath
  rw [htarget, hroot']
  rcases clean_contains r bucket.data key.data hb hk hroots with heq | hpre
  · have heqs : goClean (root ++ "/" ++ bucket ++ "/" ++ key) = goClean root := by
      apply String.ext
      rw [hXdata, hrootdata, heq]
    rw [if_neg fun hand => hand.2 heqs]
  · have hA : goHasPre (goClean (root ++ "/" ++ bucket ++ "/" ++ key))
        (goClean root ++ "/") = true := by
      unfold goHasPre
      rw [List.isPrefixOf_iff_prefix, String.data_append, hXdata, hrootdata,
        show ("/" : String).data = ['/'] from rfl]
      exact hpre
    rw [if_neg fun hand => by rw [hA] at hand; exact Bool.noConfusion hand.1]

/-- C3 witness: with root `/data`, bucket `b`, key `x/y` (no `..`
segments) resolution succeeds and returns the normalized join. -/
theorem sanitizePath_no_dotdot_ok_witness :
    sanitizePath "/" "/data" "b" "x/y"
      = Except.ok (goClean ("/data" ++ "/" ++ "b" ++ "/" ++ "x/y")) :=
  sanitizePath_no_dotdot_ok "/" "/data" "b" "x/y" rfl (by decide) (by decide) (by decide)

theorem splitSegs_cons_slash (x : List Char) : splitSegs ('/' :: x) = [] :: splitSegs x := by
  simp [splitSegs]

theorem foldl_step_cancel (rooted : Bool) (ad : Seg) (sC : List Seg) (acc : List Seg)
    (h1 : ¬(ad = [] ∨ ad = dotSeg)) (h2 : ad ≠ ddSeg) :
    List.foldl (step rooted) acc (ad :: ddSeg :: sC) = List.foldl (step rooted) acc sC := by
  have ha : step rooted acc ad = ad :: acc := by
    simp only [step, if_neg h1, if_neg h2]
  have hb : step rooted (ad :: acc) ddSeg = acc := by
    have h2' : ad ≠ ['.', '.'] := h2
    simp [step, h2', ddSeg, dotSeg]
  simp only [List.foldl_cons, ha, hb]

theorem clean_cancel_key (r bd ad cd : List Char)
    (h1 : ¬(ad = [] ∨ ad = dotSeg)) (h2 : ad ≠ ddSeg) (hsl : ('/' : Char) ∉ ad) :
    cleanChars ('/' :: (r ++ '/' :: (bd ++ '/' :: (ad ++ '/' :: ('.' :: '.' :: '/' :: cd)))))
      = cleanChars ('/' :: (r ++ '/' :: (bd ++ '/' :: cd))) := by
  have hkseg : splitSegs (ad ++ '/' :: ('.' :: '.' :: '/' :: cd))
      = ad :: ddSeg :: splitSegs cd := by
    rw [splitSegs_append, splitSegs_no_slash_eq hsl,
      show ('.' :: '.' :: '/' :: cd : List Char) = ['.', '.'] ++ '/' :: cd from rfl,
      splitSegs_append, splitSegs_no_slash_eq (show ('/' : Char) ∉ ['.', '.'] by decide)]
    simp [ddSeg]
  have hsegs1 : splitSegs (r ++ '/' :: (bd ++ '/' :: (ad ++ '/' :: ('.' :: '.' :: '/' :: cd))))
      = (splitSegs r ++ splitSegs bd) ++ (ad :: ddSeg :: splitSegs cd) := by
    rw [splitSegs_append, splitSegs_append, hkseg]
    simp [List.append_assoc]
  have hsegs2 : splitSegs (r ++ '/' :: (bd ++ '/' :: cd))
      = (splitSegs r ++ splitSegs bd) ++ splitSegs cd := by
    rw [splitSegs_append, splitSegs_append, List.append_assoc]
  have hcore : cleanCore true ([] :: ((splitSegs r ++ splitSegs bd)
        ++ (ad :: ddSeg :: splitSegs cd)))
      = cleanCore true ([] :: ((splitSegs r ++ splitSegs bd) ++ splitSegs cd)) := by
    rw [cleanCore, cleanCore]
    congr 1
    simp only [List.foldl_cons, List.foldl_append]
    exact foldl_step_cancel true ad _ _ h1 h2
  simp only [cleanChars_rooted, splitSegs_cons_slash, hsegs1, hsegs2, hcore]

/-- C8 counterexample: `.` is a non-empty segment, yet with bucket `b`
and root `/data` the key `./../c` resolves to `/data/c` while the key `c`
resolves to `/data/b/c`: the returned paths differ, so the claim fails
for the segment `a = "."`. -/
theorem sanitizePath_dot_segment_cex :
    sanitizePath "/" "/data" "b" ("." ++ "/../" ++ "c") = Except.ok "/data/c"
      ∧ sanitizePath "/" "/data" "b" "c" = Except.ok "/data/b/c"
      ∧ sanitizePath "/" "/data" "b" ("." ++ "/../" ++ "c")
        ≠ sanitizePath "/" "/data" "b" "c" := by
  refine ⟨rfl, rfl, ?_⟩
  intro h
  rw [show sanitizePath "/" "/data" "b" ("." ++ "/../" ++ "c")
      = Except.ok "/data/c" from rfl,
    show sanitizePath "/" "/data" "b" "c" = Except.ok "/data/b/c" from rfl] at h
  injection h with h'
  exact absurd h' (by decide)

/-- C8 (amended): with an absolute storage root, for every bucket, every
string `c`, and every non-empty separator-free segment `a` other than `.`
and `..`, `sanitizePath` on key `a ++ "/../" ++ c` returns exactly the
same result as on key `c`: the `..` collapses `a` away during
normalization and is never rejected beyond what the key `c` alone would
be. -/
theorem sanitizePath_dotdot_cancel (cwd root bucket a c : String)
    (habs : goIsAbs root = true)
    (ha1 : a ≠ "") (ha2 : a ≠ ".") (ha3 : a ≠ "..") (ha4 : ('/' : Char) ∉ a.data) :
    sanitizePath cwd root bucket (a ++ "/../" ++ c) = sanitizePath cwd root bucket c := by
  obtain ⟨r, hr⟩ : ∃ r, root.data = '/' :: r := by
    unfold goIsAbs at habs
    cases h : root.data with
    | nil =>
      rw [h] at habs
      exact absurd habs (by simp [isAbsChars])
    | cons ch rest =>
      rw [h] at habs
      simp only [isAbsChars] at habs
      exact ⟨rest, by rw [eq_of_beq habs]⟩
  have hne : root ≠ "" := by
    intro h
    rw [h] at hr
    exact List.noConfusion hr
  have h1 : ¬(a.data = [] ∨ a.data = dotSeg) := by
    intro h
    rcases h with h | h
    · exact ha1 (String.ext h)
    · exact ha2 (String.ext h)
  have h2 : a.data ≠ ddSeg := fun h => ha3 (String.ext h)
  have hX1 : (root ++ "/" ++ bucket ++ "/" ++ (a ++ "/../" ++ c)).data
      = '/' :: (r ++ '/' :: (bucket.data ++ '/' :: (a.data
        ++ '/' :: ('.' :: '.' :: '/' :: c.data)))) := by
    simp only [String.data_append, hr, show ("/" : String).data = ['/'] from rfl,
      show ("/../" : String).data = ['/', '.', '.', '/'] from rfl]
    simp [List.append_assoc]
  have hX2 : (root ++ "/" ++ bucket ++ "/" ++ c).data
      = '/' :: (r ++ '/' :: (bucket.data ++ '/' :: c.data)) := by
    simp only [String.data_append, hr, show ("/" : String).data = ['/'] from rfl]
    simp [List.append_assoc]
  have hclean : goClean (root ++ "/" ++ bucket ++ "/" ++ (a ++ "/../" ++ c))
      = goClean (root ++ "/" ++ bucket ++ "/" ++ c) := by
    apply String.ext
    show cleanChars (root ++ "/" ++ bucket ++ "/" ++ (a ++ "/../" ++ c)).data
      = cleanChars (root ++ "/" ++ bucket ++ "/" ++ c).data
    rw [hX1, hX2]
    exact clean_cancel_key r bucket.data a.data c.data h1 h2 ha4
  have hjoin : goJoin3 root bucket (a ++ "/../" ++ c) = goJoin3 root bucket c := by
    unfold goJoin3
    rw [if_pos hne, if_pos hne, hclean]
  unfold sanitizePath
  rw [hjoin]

/-- C8 witness: with segment `x` (not `.` or `..`), the keys `x/../y` and
`y` resolve identically under root `/data` and bucket `b`. -/
theorem sanitizePath_dotdot_cancel_witness :
    sanitizePath "/" "/data" "b" ("x" ++ "/../" ++ "y")
      = sanitizePath "/" "/data" "b" "y" :=
  sanitizePath_dotdot_cancel "/" "/data" "b" "x" "y" rfl (by decide) (by decide)
    (by decide) (by decide)

/-- C6: on a well-formed DELETE request whose path resolves, a removal
failing with not-exist yields 204 exactly as a successful removal does,
and any other removal failure yields 500. -/
theorem deleteHandler_missing_ok (cwd root : String) (fs : FS) (r : Request)
    (bucket key p : String)
    (hm : r.method = "DELETE")
    (hsplit : goSplitN2 (goTrimLeadSlash r.urlPath) = (bucket, some key))
    (hb : bucket ≠ "")
    (hp : sanitizePath cwd root bucket key = Except.ok p) :
    (fs.removeFile p = RemoveResult.errNotExist
      → deleteHandler cwd root fs r = ⟨204, none, none, none, none⟩)
      ∧ (fs.removeFile p = RemoveResult.ok
        → deleteHandler cwd root fs r = ⟨204, none, none, none, none⟩)
      ∧ (fs.removeFile p = RemoveResult.errOther
        → deleteHandler cwd root fs r = httpError "Internal Server Error" 500) := by
  have hd : deleteHandler cwd root fs r
      = match fs.removeFile p with
        | RemoveResult.errNotExist => ⟨204, none, none, none, none⟩
        | RemoveResult.errOther => httpError "Internal Server Error" 500
        | RemoveResult.ok => ⟨204, none, none, none, none⟩ := by
    simp [deleteHandler, hm, hsplit, hb, hp]
  refine ⟨fun h => ?_, fun h => ?_, fun h => ?_⟩ <;> rw [hd, h]

/-- C6 witness: DELETE `/b/k` under root `/data` on a filesystem where
the file does not exist responds 204. -/
theorem deleteHandler_missing_ok_witness :
    deleteHandler "/" "/data" fsNotExist ⟨"DELETE", "/b/k", []⟩
      = ⟨204, none, none, none, none⟩ :=
  (deleteHandler_missing_ok "/" "/data" fsNotExist ⟨"DELETE", "/b/k", []⟩
    "b" "k" "/data/b/k" rfl rfl (by decide) rfl).1 rfl

/-- C7: on a well-formed GET request whose path resolves and whose file
opens with some contents, the handler responds 200 with Content-Type
`application/octet-stream`, Content-Disposition `attachment` with the
filename set to the base name of the key, and the file's bytes as the
body, unchanged. -/
theorem downloadHandler_success (cwd root : String) (fs : FS) (r : Request)
    (bucket key p : String) (contents : List Nat)
    (hm : r.method = "GET")
    (hsplit : goSplitN2 (goTrimLeadSlash r.urlPath) = (bucket, some key))
    (hb : bucket ≠ "")
    (hp : sanitizePath cwd root bucket key = Except.ok p)
    (hopen : fs.openFile p = OpenResult.ok contents) :
    downloadHandler cwd root fs r
      = ⟨200, some "application/octet-stream",
          some ("attachment; filename=\"" ++ goBase key ++ "\""),
          some contents, none⟩ := by
  simp [downloadHandler, hm, hsplit, hb, hp, hopen]

/-- C7 witness: GET `/b/d/k.txt` under root `/data` on a filesystem whose
files contain `[7, 8, 9]` responds 200 with the headers and those bytes;
the advertised filename is the base name `k.txt` of the key, not the
bucket. -/
theorem downloadHandler_success_witness :
    downloadHandler "/" "/data" fsWithFile ⟨"GET", "/b/d/k.txt", []⟩
      = ⟨200, some "application/octet-stream",
          some ("attachment; filename=\"" ++ goBase "d/k.txt" ++ "\""),
          some [7, 8, 9], none⟩ :=
  downloadHandler_success "/" "/data" fsWithFile ⟨"GET", "/b/d/k.txt", []⟩
    "b" "d/k.txt" "/data/b/d/k.txt" [7, 8, 9] rfl rfl (by decide) rfl rfl

/-- C9: for every URL path starting with two (or more) separators, each
handler strips exactly one leading `/`, finds an empty bucket segment,
and answers 400 missing-bucket — for every working directory, root,
filesystem oracle and body, so no path resolution or filesystem
operation influences the response. -/
theorem handlers_double_slash_400 (cwd root : String) (fs : FS) (body : List Nat)
    (s : String) :
    goTrimLeadSlash ("//" ++ s) = "/" ++ s
      ∧ (goSplitN2 (goTrimLeadSlash ("//" ++ s))).1 = ""
      ∧ uploadHandler cwd root fs ⟨"PUT", "//" ++ s, body⟩
        = httpError "Bad Request: missing bucket" 400
      ∧ downloadHandler cwd root fs ⟨"GET", "//" ++ s, body⟩
        = httpError "Bad Request: missing bucket" 400
      ∧ deleteHandler cwd root fs ⟨"DELETE", "//" ++ s, body⟩
        = httpError "Bad Request: missing bucket" 400 := by
  have hdata : ("//" ++ s).data = '/' :: '/' :: s.data := by
    rw [String.data_append, show ("//" : String).data = ['/', '/'] from rfl]
    rfl
  have hslash : ("/" ++ s).data = '/' :: s.data := by
    rw [String.data_append, show ("/" : String).data = ['/'] from rfl]
    rfl
  have htrim : goTrimLeadSlash ("//" ++ s) = "/" ++ s := by
    unfold goTrimLeadSlash
    rw [hdata]
    show (⟨'/' :: s.data⟩ : String) = "/" ++ s
    exact String.ext hslash.symm
  have hsplit : goSplitN2 ("/" ++ s) = ("", some s) := by
    unfold goSplitN2
    rw [hslash]
    rw [show splitFirst ('/' :: s.data) = ([], some s.data) from by simp [splitFirst]]
    rfl
  refine ⟨htrim, by rw [htrim, hsplit], ?_, ?_, ?_⟩
  · simp [uploadHandler, htrim, hsplit]
  · simp [downloadHandler, htrim, hsplit]
  · simp [deleteHandler, htrim, hsplit]

end S3FS
